import Mathlib

/-!
# ThreadGram scraper: formal model

Shallow embedding of `src/scraper.py`. The grouping and deduplication
functions (`group_images`, `dedupe_sizes`) are modelled as pure functions
over `String`/`List Char`; Python's insertion-ordered `dict` is modelled
as an association list with Python's assignment semantics (replace value
in place when the key exists, append at the end otherwise). Python's
`re.search` for the two concrete patterns used by the code is embedded
directly: both patterns are backtracking-free (every `\d+` run must be
maximal, since shortening it would place a digit where a literal `_` is
required), so a left-to-right scan trying a deterministic matcher at each
position is an exact model. `\d` is modelled as an ASCII digit, the shape
URLs actually have.
-/

namespace ThreadGram

/-- Maximal-munch matcher for the pattern `/(\d+)_(\d{9})` anchored at the
head of the character list: a slash, a nonempty digit run, an underscore,
then at least nine digits; returns `group(2)`, the first nine digits of the
second run (the code's `post_id`). -/
def matchPostIdAt : List Char → Option String
  | [] => none
  | c :: rest =>
    if c = '/' then
      if (rest.takeWhile Char.isDigit).isEmpty then none
      else
        match rest.dropWhile Char.isDigit with
        | [] => none
        | c1 :: rest2 =>
          if c1 = '_' then
            let nine := rest2.take 9
            if nine.length = 9 ∧ nine.all Char.isDigit then some (String.mk nine)
            else none
          else none
    else none

/-- `re.search(r'/(\d+)_(\d{9})', url).group(2)`: try the anchored matcher at
every position left to right. -/
def searchPostId : List Char → Option String
  | [] => none
  | c :: cs =>
    match matchPostIdAt (c :: cs) with
    | some s => some s
    | none => searchPostId cs

/-- Maximal-munch matcher for `/(\d+_\d+_\d+_n)` anchored at the head:
slash, three nonempty digit runs separated by underscores, then `_n`;
returns `group(1)` (the code's `img_id`). -/
def matchImgIdAt : List Char → Option String
  | [] => none
  | c :: rest =>
    if c = '/' then
      let r1 := rest.takeWhile Char.isDigit
      if r1.isEmpty then none
      else
        match rest.dropWhile Char.isDigit with
        | [] => none
        | c1 :: rest2 =>
          if c1 = '_' then
            let r2 := rest2.takeWhile Char.isDigit
            if r2.isEmpty then none
            else
              match rest2.dropWhile Char.isDigit with
              | [] => none
              | c2 :: rest4 =>
                if c2 = '_' then
                  let r3 := rest4.takeWhile Char.isDigit
                  if r3.isEmpty then none
                  else
                    match rest4.dropWhile Char.isDigit with
                    | c3 :: c4 :: _ =>
                      if c3 = '_' ∧ c4 = 'n' then
                        some (String.mk (r1 ++ '_' :: r2 ++ '_' :: r3 ++ ['_', 'n']))
                      else none
                    | _ => none
                else none
          else none
    else none

/-- `re.search(r'/(\d+_\d+_\d+_n)', url).group(1)`. -/
def searchImgId : List Char → Option String
  | [] => none
  | c :: cs =>
    match matchImgIdAt (c :: cs) with
    | some s => some s
    | none => searchImgId cs

/-- `needle` occurs as a contiguous run somewhere in `hay`. -/
def hasInfix (needle : List Char) : List Char → Bool
  | [] => needle.isPrefixOf []
  | c :: cs => needle.isPrefixOf (c :: cs) || hasInfix needle cs

/-- `'needle' in url` (Python substring containment). -/
def containsSub (url needle : String) : Bool :=
  hasInfix needle.data url.data

/-- The priority assigned by `dedupe_sizes` to a URL whose `img_id` pattern
matched: `s150x150` → 1, else `s320x320` → 2, else `s640x640` → 3, else 4. -/
def priority (url : String) : Nat :=
  if containsSub url "s150x150" then 1
  else if containsSub url "s320x320" then 2
  else if containsSub url "s640x640" then 3
  else 4

/-- Python `d[k] = v` on an insertion-ordered dict modelled as an
association list: replace the value in place if the key is present,
otherwise append the binding at the end. -/
def setAssoc {β : Type} (m : List (String × β)) (k : String) (v : β) :
    List (String × β) :=
  if m.any (fun e => e.1 == k) then
    m.map (fun e => if e.1 == k then (e.1, v) else e)
  else m ++ [(k, v)]

/-- One iteration of the `dedupe_sizes` loop acting on `seen_ids`. -/
def dedupeStep (seen : List (String × (String × Nat))) (url : String) :
    List (String × (String × Nat)) :=
  match searchImgId url.data with
  | some imgId =>
    let pr := priority url
    match seen.lookup imgId with
    | none => seen ++ [(imgId, (url, pr))]
    | some v => if pr > v.2 then setAssoc seen imgId (url, pr) else seen
  | none => setAssoc seen url (url, 0)

/-- `dedupe_sizes(urls)`: fold the loop over the list, then return the
stored URLs in insertion order (`seen_ids.values()`). -/
def dedupe_sizes (urls : List String) : List String :=
  ((urls.foldl dedupeStep []).map (fun e => e.2.1))

/-- The synthetic fallback key: the f-string `f"single_{n}"`. -/
def singleKey (n : Nat) : String := "single_" ++ Nat.repr n

/-- One iteration of the grouping loop in `group_images`: on a pattern
match, append the URL to its `post_id` group (creating it if absent); on a
miss, assign a fresh singleton group under the synthetic key
`single_<current number of groups>`. -/
def groupStep (gs : List (String × List String)) (url : String) :
    List (String × List String) :=
  match searchPostId url.data with
  | some pid =>
    if gs.any (fun e => e.1 == pid) then
      gs.map (fun e => if e.1 == pid then (e.1, e.2 ++ [url]) else e)
    else gs ++ [(pid, [url])]
  | none => setAssoc gs (singleKey gs.length) [url]

/-- The pre-dedup groups built by `group_images` (the dict `groups`). -/
def buildGroups (images : List String) : List (String × List String) :=
  images.foldl groupStep []

/-- `group_images(images)`: dedupe each group in insertion order, keeping
only non-empty results. -/
def group_images (images : List String) : List (List String) :=
  ((buildGroups images).map (fun g => dedupe_sizes g.2)).filter
    (fun p => !p.isEmpty)

/-! ## Collector model

The scroll loop of `scrape_threads` (lines 38-69), reframed as the spec
suggests: a fold over a scripted sequence of per-iteration extraction
batches. `all_images` (a Python `set` merged in iteration order) is an
ordered duplicate-free list; the loop carries `last_count` and
`no_new_count` exactly as the code does and reports how many iterations it
executed and how many scroll commands it issued (the `break` fires before
the scroll of its iteration). -/

/-- `all_images.add(img)`. -/
def insertUniq (s : List String) (x : String) : List String :=
  if s.contains x then s else s ++ [x]

/-- Merge one extraction batch into the running unique set (the inner
`for img in images: all_images.add(img)` loop). -/
def mergeBatch (s : List String) (b : List String) : List String :=
  b.foldl insertUniq s

/-- The scroll loop: `remaining` iterations left in the budget, `i` the
current iteration index, then the accumulator, `last_count` and
`no_new_count`. Returns the final accumulator, the number of iterations
executed and the number of scrolls issued. -/
def collectorLoop (batches : Nat → List String) :
    Nat → Nat → List String → Nat → Nat → List String × Nat × Nat
  | 0, _, imgs, _, _ => (imgs, 0, 0)
  | remaining + 1, i, imgs, lastCount, noNew =>
    let imgs2 := mergeBatch imgs (batches i)
    let current := imgs2.length
    if current = lastCount then
      if noNew + 1 ≥ 5 then (imgs2, 1, 0)
      else
        let r := collectorLoop batches remaining (i + 1) imgs2 current (noNew + 1)
        (r.1, r.2.1 + 1, r.2.2 + 1)
    else
      let r := collectorLoop batches remaining (i + 1) imgs2 current 0
      (r.1, r.2.1 + 1, r.2.2 + 1)

/-- Run the collector with a scroll budget (`max_scrolls`), starting from
the empty set, `last_count = 0`, `no_new_count = 0`. -/
def collectorRun (batches : Nat → List String) (budget : Nat) :
    List String × Nat × Nat :=
  collectorLoop batches budget 0 [] 0 0

/-- The accumulated unique-URL set after the first `n` iterations have
merged their batches (`accumUpTo 0` is the initial empty set). -/
def accumUpTo (batches : Nat → List String) : Nat → List String
  | 0 => []
  | n + 1 => mergeBatch (accumUpTo batches n) (batches n)

/-! ## Persistence record

The `result` dict literal written by `scrape_threads` (lines 84-90). -/

/-- A top-level value of the serialized record. -/
inductive JsonField where
  | str (s : String)
  | num (n : Nat)
  | nested (ps : List (List String))
deriving DecidableEq

/-- The `result` dict: its five bindings in source order. -/
def mkScrapeResult (username scrapedAt : String) (allImages : List String)
    (posts : List (List String)) : List (String × JsonField) :=
  [("username", .str username),
   ("scraped_at", .str scrapedAt),
   ("total_images", .num allImages.length),
   ("total_posts", .num posts.length),
   ("posts", .nested posts)]

/-! ## Verification-side definitions -/

/-- All URLs stored in the groups, in group order. -/
def groupsUrls (gs : List (String × List String)) : List String :=
  (gs.map Prod.snd).flatten

/-- Invariants maintained by the grouping loop: keys are distinct, every
synthetic key in the dict was minted when the dict was strictly smaller,
synthetic keys hold exactly their one unmatched URL, and every other
group holds only URLs that matched the grouping pattern. -/
structure GroupsInv (gs : List (String × List String)) : Prop where
  nodupKeys : (gs.map Prod.fst).Nodup
  singleLt : ∀ n, singleKey n ∈ gs.map Prod.fst → n < gs.length
  singleGroups : ∀ k l, (k, l) ∈ gs → k.data.head? = some 's' →
    ∃ u, l = [u] ∧ searchPostId u.data = none
  pidGroups : ∀ k l, (k, l) ∈ gs → k.data.head? ≠ some 's' →
    ∀ u ∈ l, searchPostId u.data ≠ none

/-- The dedup key of a URL: its canonical `img_id` when the pattern
matches, the URL itself otherwise. A pure function of the URL alone. -/
def dkey (u : String) : String :=
  match searchImgId u.data with
  | some k => k
  | none => u

/-- Invariant of `seen_ids`: keys are distinct and every entry is stored
under the dedup key of the URL it holds. -/
structure SeenInv (seen : List (String × (String × Nat))) : Prop where
  nodupKeys : (seen.map Prod.fst).Nodup
  keyed : ∀ e ∈ seen, dkey e.2.1 = e.1

/-! ## Injectivity of the decimal representation

The fallback keys are `"single_" ++ Nat.repr (number of groups)`;
freshness of such a key rests on `Nat.repr` being injective, proved here
by reading the digit string back to a number. -/

/-- Numeric value of a decimal digit character. -/
def digitVal (c : Char) : Nat := c.toNat - 48

/-- Value of a digit string, read left to right. -/
def listVal (ds : List Char) : Nat := ds.foldl (fun a c => 10 * a + digitVal c) 0

theorem digitVal_digitChar {m : Nat} (h : m < 10) :
    digitVal (Nat.digitChar m) = m := by
  interval_cases m <;> decide

theorem toDigitsCore_append (fuel : Nat) :
    ∀ (n : Nat) (ds : List Char),
      Nat.toDigitsCore 10 fuel n ds = Nat.toDigitsCore 10 fuel n [] ++ ds := by
  induction fuel with
  | zero => intro n ds; simp [Nat.toDigitsCore]
  | succ f ih =>
    intro n ds
    simp only [Nat.toDigitsCore]
    by_cases h : n / 10 = 0
    · simp [h]
    · simp only [h, if_false]
      rw [ih (n / 10) (Nat.digitChar (n % 10) :: ds),
        ih (n / 10) [Nat.digitChar (n % 10)]]
      simp

theorem listVal_append_digit (ds : List Char) (c : Char) :
    listVal (ds ++ [c]) = 10 * listVal ds + digitVal c := by
  simp [listVal, List.foldl_append]

theorem listVal_toDigitsCore (fuel : Nat) :
    ∀ n : Nat, n < fuel → listVal (Nat.toDigitsCore 10 fuel n []) = n := by
  induction fuel with
  | zero => intro n h; omega
  | succ f ih =>
    intro n h
    simp only [Nat.toDigitsCore]
    by_cases h0 : n / 10 = 0
    · have hn : n < 10 := by omega
      simp only [h0, if_true]
      have : listVal [Nat.digitChar (n % 10)] = digitVal (Nat.digitChar (n % 10)) := by
        simp [listVal]
      rw [this, digitVal_digitChar (Nat.mod_lt n (by norm_num)),
        Nat.mod_eq_of_lt hn]
    · have hn1 : 1 ≤ n := by omega
      have hlt : n / 10 < f := by
        have := Nat.div_lt_self hn1 (by norm_num : 1 < 10)
        omega
      simp only [h0, if_false]
      rw [toDigitsCore_append, listVal_append_digit, ih (n / 10) hlt,
        digitVal_digitChar (Nat.mod_lt n (by omega))]
      omega

theorem natRepr_inj {m n : Nat} (h : Nat.repr m = Nat.repr n) : m = n := by
  have hd : Nat.toDigits 10 m = Nat.toDigits 10 n := by
    have : (Nat.toDigits 10 m).asString.data = (Nat.toDigits 10 n).asString.data := by
      rw [show (Nat.toDigits 10 m).asString = Nat.repr m from rfl,
        show (Nat.toDigits 10 n).asString = Nat.repr n from rfl, h]
    simpa using this
  have hm := listVal_toDigitsCore (m + 1) m (Nat.lt_succ_self m)
  have hn := listVal_toDigitsCore (n + 1) n (Nat.lt_succ_self n)
  rw [show Nat.toDigitsCore 10 (m + 1) m [] = Nat.toDigits 10 m from rfl, hd,
    show Nat.toDigits 10 n = Nat.toDigitsCore 10 (n + 1) n [] from rfl, hn] at hm
  omega

theorem singleKey_inj {m n : Nat} (h : singleKey m = singleKey n) : m = n := by
  apply natRepr_inj
  have hd := congrArg String.data h
  simp only [singleKey, String.data_append] at hd
  exact String.ext (List.append_cancel_left hd)

theorem singleKey_head (n : Nat) :
    (singleKey n).data.head? = some 's' := by
  have : (singleKey n).data = 's' :: ("ingle_".data ++ (Nat.repr n).data) := by
    simp [singleKey, String.data_append]
  rw [this]; rfl

/-! ## Shape of extracted post ids

A `post_id` produced by the grouping pattern starts with a digit, so it
can never coincide with a synthetic `single_…` key, whose first character
is `'s'`. -/

theorem matchPostIdAt_head {cs : List Char} {pid : String}
    (h : matchPostIdAt cs = some pid) :
    ∃ c cs', pid.data = c :: cs' ∧ c.isDigit = true := by
  match cs with
  | [] => simp [matchPostIdAt] at h
  | c :: rest =>
    simp only [matchPostIdAt] at h
    split at h <;> try simp at h
    split at h <;> try simp at h
    rename_i hs x c1 rest2 heq
    obtain ⟨-, -, ⟨hlen, hdig⟩, hpid⟩ := h
    cases rest2 with
    | nil => simp at hlen
    | cons x rest3 =>
      refine ⟨x, List.take 8 rest3, ?_, ?_⟩
      · rw [← hpid]; rfl
      · exact hdig x (by simp)

theorem searchPostId_head : ∀ {cs : List Char} {pid : String},
    searchPostId cs = some pid →
    ∃ c cs', pid.data = c :: cs' ∧ c.isDigit = true := by
  intro cs
  induction cs with
  | nil => intro pid h; simp [searchPostId] at h
  | cons c cs ih =>
    intro pid h
    rw [searchPostId] at h
    cases hm : matchPostIdAt (c :: cs) with
    | some s =>
      rw [hm] at h
      cases h
      exact matchPostIdAt_head hm
    | none =>
      rw [hm] at h
      exact ih h

theorem searchPostId_ne_singleKey {cs : List Char} {pid : String} {n : Nat}
    (h : searchPostId cs = some pid) : pid ≠ singleKey n := by
  obtain ⟨c, cs', hdata, hdig⟩ := searchPostId_head h
  intro he
  have : pid.data.head? = some 's' := he ▸ singleKey_head n
  rw [hdata] at this
  simp at this
  rw [this] at hdig
  simp at hdig

/-! ## The grouping loop partitions its input -/

theorem groupsUrls_cons (e : String × List String) (m : List (String × List String)) :
    groupsUrls (e :: m) = e.2 ++ groupsUrls m := by
  simp [groupsUrls]

theorem groupsUrls_append_single (m : List (String × List String))
    (e : String × List String) :
    groupsUrls (m ++ [e]) = groupsUrls m ++ e.2 := by
  simp [groupsUrls]

theorem searchPostId_head_ne_s {cs : List Char} {pid : String}
    (h : searchPostId cs = some pid) : pid.data.head? ≠ some 's' := by
  obtain ⟨c, cs', hdata, hdig⟩ := searchPostId_head h
  rw [hdata]
  intro hc
  simp at hc
  rw [hc] at hdig
  simp at hdig

theorem any_beq_iff {β : Type} (m : List (String × β)) (k : String) :
    (m.any (fun e => e.1 == k)) = true ↔ k ∈ m.map Prod.fst := by
  rw [List.any_eq_true]
  constructor
  · rintro ⟨e, he, hbe⟩
    exact List.mem_map.mpr ⟨e, he, by simpa using hbe⟩
  · intro h
    obtain ⟨e, he, hk⟩ := List.mem_map.mp h
    exact ⟨e, he, by simp [hk]⟩

theorem map_fst_update {β : Type} (m : List (String × β)) (k : String)
    (g : String × β → β) :
    ((m.map (fun e => if e.1 == k then (e.1, g e) else e)).map Prod.fst) =
      m.map Prod.fst := by
  rw [List.map_map]
  apply List.map_congr_left
  intro e he
  by_cases h : e.1 = k <;> simp [h]

theorem update_of_not_mem {β : Type} (m : List (String × β)) (k : String)
    (g : String × β → β) (h : k ∉ m.map Prod.fst) :
    m.map (fun e => if e.1 == k then (e.1, g e) else e) = m := by
  induction m with
  | nil => rfl
  | cons e m ih =>
    simp only [List.map_cons, List.mem_cons] at h
    push_neg at h
    have h1 : (e.1 == k) = false := by
      simp [beq_eq_false_iff_ne]
      exact fun hk => h.1 hk.symm
    simp only [List.map_cons, h1, if_neg, Bool.false_eq_true, not_false_eq_true, ih h.2]

theorem singleKey_fresh {gs : List (String × List String)} (inv : GroupsInv gs) :
    (gs.any (fun e => e.1 == singleKey gs.length)) = false := by
  cases hb : gs.any (fun e => e.1 == singleKey gs.length)
  · rfl
  · have hm : singleKey gs.length ∈ gs.map Prod.fst := (any_beq_iff gs _).mp hb
    exact absurd (inv.singleLt gs.length hm) (by omega)

theorem flatten_update_perm (m : List (String × List String)) (k url : String)
    (hnd : (m.map Prod.fst).Nodup) (hk : k ∈ m.map Prod.fst) :
    (groupsUrls (m.map (fun e => if e.1 == k then (e.1, e.2 ++ [url]) else e))).Perm
      (groupsUrls m ++ [url]) := by
  induction m with
  | nil => simp at hk
  | cons e m ih =>
    simp only [List.map_cons, List.nodup_cons] at hnd
    obtain ⟨hne, hnd2⟩ := hnd
    by_cases he : e.1 = k
    · have hkm : k ∉ m.map Prod.fst := he ▸ hne
      have hrest := update_of_not_mem m k (fun e2 => e2.2 ++ [url]) hkm
      rw [List.map_cons, if_pos (by simp [he]), hrest, groupsUrls_cons,
        groupsUrls_cons]
      have h1 : (e.2 ++ [url]) ++ groupsUrls m = e.2 ++ ([url] ++ groupsUrls m) := by
        simp [List.append_assoc]
      have h2 : (e.2 ++ groupsUrls m) ++ [url] = e.2 ++ (groupsUrls m ++ [url]) := by
        simp [List.append_assoc]
      rw [show ((e.1, e.2 ++ [url]) : String × List String).2 = e.2 ++ [url] from rfl, h1, h2]
      exact List.Perm.append_left e.2 List.perm_append_comm
    · have hkm : k ∈ m.map Prod.fst := by
        rcases List.mem_cons.mp hk with h | h
        · exact absurd h.symm he
        · exact h
      rw [List.map_cons, if_neg (by simp [he]), groupsUrls_cons, groupsUrls_cons,
        List.append_assoc]
      exact List.Perm.append_left e.2 (ih hnd2 hkm)

theorem groupStep_urls {gs : List (String × List String)} (inv : GroupsInv gs)
    (url : String) :
    (groupsUrls (groupStep gs url)).Perm (groupsUrls gs ++ [url]) := by
  rw [groupStep]
  cases hs : searchPostId url.data with
  | some pid =>
    simp only
    by_cases hmem : (gs.any (fun e => e.1 == pid)) = true
    · rw [if_pos hmem]
      exact flatten_update_perm gs pid url inv.nodupKeys ((any_beq_iff gs pid).mp hmem)
    · rw [if_neg hmem, groupsUrls_append_single]
  | none =>
    simp only [setAssoc, singleKey_fresh inv, Bool.false_eq_true, if_neg,
      not_false_eq_true]
    rw [groupsUrls_append_single]

theorem groupStep_inv {gs : List (String × List String)} (inv : GroupsInv gs)
    (url : String) : GroupsInv (groupStep gs url) := by
  rw [groupStep]
  cases hs : searchPostId url.data with
  | some pid =>
    simp only
    by_cases hmem : (gs.any (fun e => e.1 == pid)) = true
    · rw [if_pos hmem]
      have hkeys := map_fst_update gs pid (fun e => e.2 ++ [url])
      refine ⟨?_, ?_, ?_, ?_⟩
      · rw [hkeys]; exact inv.nodupKeys
      · intro n hn
        rw [hkeys] at hn
        have := inv.singleLt n hn
        simpa using this
      · intro k l hkl hhead
        obtain ⟨e, he, hupd⟩ := List.mem_map.mp hkl
        by_cases hek : e.1 = pid
        · rw [if_pos (by simp [hek])] at hupd
          have : k = pid := by
            have h2 := congrArg Prod.fst hupd
            simp [hek] at h2
            exact h2.symm
          exact absurd (this ▸ hhead) (searchPostId_head_ne_s hs)
        · rw [if_neg (by simp [hek])] at hupd
          exact inv.singleGroups k l (hupd ▸ he) hhead
      · intro k l hkl hhead u hu
        obtain ⟨e, he, hupd⟩ := List.mem_map.mp hkl
        by_cases hek : e.1 = pid
        · rw [if_pos (by simp [hek])] at hupd
          have hk : k = e.1 := (congrArg Prod.fst hupd).symm
          have hl : l = e.2 ++ [url] := (congrArg Prod.snd hupd).symm
          rcases List.mem_append.mp (hl ▸ hu) with h2 | h2
          · exact inv.pidGroups e.1 e.2 (by
              have : e = (e.1, e.2) := rfl
              rw [← this]; exact he) (hk ▸ hhead) u h2
          · have : u = url := by simpa using h2
            rw [this, hs]; simp
        · rw [if_neg (by simp [hek])] at hupd
          exact inv.pidGroups k l (hupd ▸ he) hhead u hu
    · rw [if_neg hmem]
      have hpid_notin : pid ∉ gs.map Prod.fst := by
        intro hp
        exact hmem ((any_beq_iff gs pid).mpr hp)
      refine ⟨?_, ?_, ?_, ?_⟩
      · simp only [List.map_append, List.map_cons, List.map_nil]
        rw [List.nodup_append]
        refine ⟨inv.nodupKeys, List.nodup_singleton pid, ?_⟩
        intro a ha hb
        simp only [List.mem_cons, List.not_mem_nil, or_false] at hb
        rw [hb] at ha
        exact hpid_notin ha
      · intro n hn
        simp only [List.map_append, List.map_cons, List.map_nil,
          List.mem_append, List.mem_singleton] at hn
        rcases hn with hn | hn
        · have := inv.singleLt n hn
          simp only [List.length_append, List.length_cons, List.length_nil]
          omega
        · exact absurd hn.symm (searchPostId_ne_singleKey hs)
      · intro k l hkl hhead
        rcases List.mem_append.mp hkl with hin | hin
        · exact inv.singleGroups k l hin hhead
        · have : (k, l) = (pid, [url]) := by simpa using hin
          have hk : k = pid := (congrArg Prod.fst this)
          exact absurd (hk ▸ hhead) (searchPostId_head_ne_s hs)
      · intro k l hkl hhead u hu
        rcases List.mem_append.mp hkl with hin | hin
        · exact inv.pidGroups k l hin hhead u hu
        · have heq : (k, l) = (pid, [url]) := by simpa using hin
          have hl : l = [url] := congrArg Prod.snd heq
          have : u = url := by simpa [hl] using hu
          rw [this, hs]; simp
  | none =>
    simp only [setAssoc, singleKey_fresh inv, Bool.false_eq_true, if_neg,
      not_false_eq_true]
    have hfresh : singleKey gs.length ∉ gs.map Prod.fst := by
      intro hp
      have := (any_beq_iff gs _).mpr hp
      rw [singleKey_fresh inv] at this
      exact absurd this (by simp)
    refine ⟨?_, ?_, ?_, ?_⟩
    · simp only [List.map_append, List.map_cons, List.map_nil]
      rw [List.nodup_append]
      refine ⟨inv.nodupKeys, List.nodup_singleton _, ?_⟩
      intro a ha hb
      simp only [List.mem_cons, List.not_mem_nil, or_false] at hb
      rw [hb] at ha
      exact hfresh ha
    · intro n hn
      simp only [List.map_append, List.map_cons, List.map_nil,
        List.mem_append, List.mem_singleton] at hn
      simp only [List.length_append, List.length_cons, List.length_nil]
      rcases hn with hn | hn
      · have := inv.singleLt n hn
        omega
      · have := singleKey_inj hn
        omega
    · intro k l hkl hhead
      rcases List.mem_append.mp hkl with hin | hin
      · exact inv.singleGroups k l hin hhead
      · have heq : (k, l) = (singleKey gs.length, [url]) := by simpa using hin
        exact ⟨url, congrArg Prod.snd heq, hs⟩
    · intro k l hkl hhead u hu
      rcases List.mem_append.mp hkl with hin | hin
      · exact inv.pidGroups k l hin hhead u hu
      · have heq : (k, l) = (singleKey gs.length, [url]) := by simpa using hin
        have hk : k = singleKey gs.length := congrArg Prod.fst heq
        exact absurd (hk ▸ hhead) (by rw [singleKey_head]; simp)

theorem groupsInv_nil : GroupsInv [] :=
  ⟨List.nodup_nil, by simp, by simp, by simp⟩

theorem foldl_groupStep_inv (images : List String) :
    ∀ gs : List (String × List String), GroupsInv gs →
      GroupsInv (images.foldl groupStep gs) := by
  induction images with
  | nil => intro gs h; exact h
  | cons u us ih => intro gs h; exact ih _ (groupStep_inv h u)

theorem foldl_groupStep_urls (images : List String) :
    ∀ gs : List (String × List String), GroupsInv gs →
      (groupsUrls (images.foldl groupStep gs)).Perm (groupsUrls gs ++ images) := by
  induction images with
  | nil => intro gs h; simp
  | cons u us ih =>
    intro gs h
    rw [List.foldl_cons]
    have h1 := ih (groupStep gs u) (groupStep_inv h u)
    have h3 : (groupsUrls (groupStep gs u) ++ us).Perm ((groupsUrls gs ++ [u]) ++ us) :=
      (groupStep_urls h u).append_right us
    have h4 := h1.trans h3
    rw [List.append_assoc] at h4
    simpa using h4

theorem buildGroups_inv (images : List String) : GroupsInv (buildGroups images) :=
  foldl_groupStep_inv images [] groupsInv_nil

theorem buildGroups_urls_perm (images : List String) :
    (groupsUrls (buildGroups images)).Perm images := by
  have := foldl_groupStep_urls images [] groupsInv_nil
  simpa [buildGroups, groupsUrls] using this

/-! ## Properties of the dedup pass -/

theorem lookup_eq_none_iff (seen : List (String × (String × Nat))) (k : String) :
    seen.lookup k = none ↔ k ∉ seen.map Prod.fst := by
  induction seen with
  | nil => simp
  | cons e m ih =>
    by_cases h : k = e.1
    · simp [List.lookup, h]
    · have hb : (k == e.1) = false := by simp [h]
      simp [List.lookup, hb, ih, h]

theorem seenInv_step {seen : List (String × (String × Nat))} (inv : SeenInv seen)
    (url : String) : SeenInv (dedupeStep seen url) := by
  rw [dedupeStep]
  cases hs : searchImgId url.data with
  | some k =>
    simp only
    cases hl : seen.lookup k with
    | none =>
      have hnk : k ∉ seen.map Prod.fst := (lookup_eq_none_iff seen k).mp hl
      refine ⟨?_, ?_⟩
      · simp only [List.map_append, List.map_cons, List.map_nil]
        rw [List.nodup_append]
        refine ⟨inv.nodupKeys, List.nodup_singleton _, ?_⟩
        intro a ha hb
        simp only [List.mem_cons, List.not_mem_nil, or_false] at hb
        rw [hb] at ha
        exact hnk ha
      · intro e he
        rcases List.mem_append.mp he with hin | hin
        · exact inv.keyed e hin
        · have : e = (k, (url, priority url)) := by simpa using hin
          rw [this]
          simp [dkey, hs]
    | some v =>
      dsimp only
      by_cases hp : priority url > v.2
      · rw [if_pos hp]
        have hk : k ∈ seen.map Prod.fst := by
          by_contra hc
          rw [(lookup_eq_none_iff seen k).mpr hc] at hl
          exact absurd hl (by simp)
        rw [setAssoc, if_pos ((any_beq_iff seen k).mpr hk)]
        refine ⟨?_, ?_⟩
        · rw [map_fst_update]; exact inv.nodupKeys
        · intro e he
          obtain ⟨e0, he0, hupd⟩ := List.mem_map.mp he
          by_cases hek : e0.1 = k
          · rw [if_pos (by simp [hek])] at hupd
            rw [← hupd]
            simp [dkey, hs, hek]
          · rw [if_neg (by simp [hek])] at hupd
            exact inv.keyed e (hupd ▸ he0)
      · rw [if_neg hp]; exact inv
  | none =>
    simp only [setAssoc]
    by_cases hmem : (seen.any (fun e => e.1 == url)) = true
    · rw [if_pos hmem]
      refine ⟨?_, ?_⟩
      · rw [map_fst_update]; exact inv.nodupKeys
      · intro e he
        obtain ⟨e0, he0, hupd⟩ := List.mem_map.mp he
        by_cases hek : e0.1 = url
        · rw [if_pos (by simp [hek])] at hupd
          rw [← hupd]
          simp [dkey, hs, hek]
        · rw [if_neg (by simp [hek])] at hupd
          exact inv.keyed e (hupd ▸ he0)
    · rw [if_neg hmem]
      refine ⟨?_, ?_⟩
      · simp only [List.map_append, List.map_cons, List.map_nil]
        rw [List.nodup_append]
        refine ⟨inv.nodupKeys, List.nodup_singleton _, ?_⟩
        intro a ha hb
        simp only [List.mem_cons, List.not_mem_nil, or_false] at hb
        rw [hb] at ha
        exact hmem ((any_beq_iff seen url).mpr ha)
      · intro e he
        rcases List.mem_append.mp he with hin | hin
        · exact inv.keyed e hin
        · have : e = (url, (url, 0)) := by simpa using hin
          rw [this]
          simp [dkey, hs]

theorem seenInv_nil : SeenInv [] := ⟨List.nodup_nil, by simp⟩

theorem foldl_dedupeStep_inv (l : List String) :
    ∀ seen, SeenInv seen → SeenInv (l.foldl dedupeStep seen) := by
  induction l with
  | nil => intro seen h; exact h
  | cons u us ih => intro seen h; exact ih _ (seenInv_step h u)

theorem dedupe_sizes_keys_nodup (l : List String) :
    ((dedupe_sizes l).map dkey).Nodup := by
  have inv := foldl_dedupeStep_inv l [] seenInv_nil
  have : (dedupe_sizes l).map dkey = (l.foldl dedupeStep []).map Prod.fst := by
    rw [dedupe_sizes, List.map_map]
    apply List.map_congr_left
    intro e he
    exact inv.keyed e he
  rw [this]
  exact inv.nodupKeys

/-- When a URL's dedup key is not yet present, the step simply appends its
entry at the end. -/
theorem dedupeStep_fresh {seen : List (String × (String × Nat))} {u : String}
    (h : dkey u ∉ seen.map Prod.fst) :
    ∃ pr, dedupeStep seen u = seen ++ [(dkey u, (u, pr))] := by
  rw [dedupeStep]
  cases hs : searchImgId u.data with
  | some k =>
    have hk : dkey u = k := by simp [dkey, hs]
    rw [hk] at h
    simp only [(lookup_eq_none_iff seen k).mpr h]
    exact ⟨priority u, by rw [hk]⟩
  | none =>
    have hk : dkey u = u := by simp [dkey, hs]
    rw [hk] at h
    have hany : (seen.any (fun e => e.1 == u)) = false := by
      cases hb : seen.any (fun e => e.1 == u)
      · rfl
      · exact absurd ((any_beq_iff seen u).mp hb) h
    rw [setAssoc, hany]
    exact ⟨0, by rw [hk]; simp⟩

theorem foldl_dedupeStep_of_fresh (l : List String) :
    ∀ seen, ((l.map dkey).Nodup) →
      (∀ u ∈ l, dkey u ∉ seen.map Prod.fst) →
      (l.foldl dedupeStep seen).map (fun e => e.2.1) =
        seen.map (fun e => e.2.1) ++ l := by
  induction l with
  | nil => intro seen _ _; simp
  | cons u us ih =>
    intro seen hnd hfresh
    simp only [List.map_cons, List.nodup_cons] at hnd
    obtain ⟨hu, hnd2⟩ := hnd
    obtain ⟨pr, hstep⟩ := dedupeStep_fresh (hfresh u (by simp))
    rw [List.foldl_cons, hstep]
    have hfresh2 : ∀ v ∈ us, dkey v ∉ (seen ++ [(dkey u, (u, pr))]).map Prod.fst := by
      intro v hv
      simp only [List.map_append, List.map_cons, List.map_nil, List.mem_append,
        List.mem_cons, List.not_mem_nil, or_false]
      rintro (hin | hin)
      · exact hfresh v (by simp [hv]) hin
      · exact hu (hin ▸ List.mem_map.mpr ⟨v, hv, rfl⟩)
    rw [ih (seen ++ [(dkey u, (u, pr))]) hnd2 hfresh2]
    simp

/-- The dedup pass is the identity on a list whose dedup keys are already
pairwise distinct. -/
theorem dedupe_sizes_of_nodup_keys {l : List String}
    (h : (l.map dkey).Nodup) : dedupe_sizes l = l := by
  rw [dedupe_sizes]
  have := foldl_dedupeStep_of_fresh l [] h (by simp)
  simpa using this

theorem dedupeStep_mem {seen : List (String × (String × Nat))} {u : String}
    {e : String × (String × Nat)} (he : e ∈ dedupeStep seen u) :
    e ∈ seen ∨ e.2.1 = u := by
  rw [dedupeStep] at he
  cases hs : searchImgId u.data with
  | some k =>
    rw [hs] at he
    simp only at he
    cases hl : seen.lookup k with
    | none =>
      rw [hl] at he
      rcases List.mem_append.mp he with hin | hin
      · exact Or.inl hin
      · right
        have : e = (k, (u, priority u)) := by simpa using hin
        rw [this]
    | some v =>
      rw [hl] at he
      dsimp only at he
      by_cases hp : priority u > v.2
      · rw [if_pos hp, setAssoc] at he
        by_cases hany : (seen.any (fun e2 => e2.1 == k)) = true
        · rw [if_pos hany] at he
          obtain ⟨e0, he0, hupd⟩ := List.mem_map.mp he
          by_cases hek : e0.1 = k
          · rw [if_pos (by simp [hek])] at hupd
            right
            rw [← hupd]
          · rw [if_neg (by simp [hek])] at hupd
            exact Or.inl (hupd ▸ he0)
        · rw [if_neg hany] at he
          rcases List.mem_append.mp he with hin | hin
          · exact Or.inl hin
          · right
            have : e = (k, (u, priority u)) := by simpa using hin
            rw [this]
      · rw [if_neg hp] at he
        exact Or.inl he
  | none =>
    rw [hs, setAssoc] at he
    by_cases hany : (seen.any (fun e2 => e2.1 == u)) = true
    · rw [if_pos hany] at he
      obtain ⟨e0, he0, hupd⟩ := List.mem_map.mp he
      by_cases hek : e0.1 = u
      · rw [if_pos (by simp [hek])] at hupd
        right
        rw [← hupd]
      · rw [if_neg (by simp [hek])] at hupd
        exact Or.inl (hupd ▸ he0)
    · rw [if_neg hany] at he
      rcases List.mem_append.mp he with hin | hin
      · exact Or.inl hin
      · right
        have : e = (u, (u, 0)) := by simpa using hin
        rw [this]

theorem foldl_dedupeStep_mem (l : List String) :
    ∀ seen (e : String × (String × Nat)), e ∈ l.foldl dedupeStep seen →
      e ∈ seen ∨ e.2.1 ∈ l := by
  induction l with
  | nil => intro seen e he; exact Or.inl he
  | cons u us ih =>
    intro seen e he
    rw [List.foldl_cons] at he
    rcases ih (dedupeStep seen u) e he with hin | hin
    · rcases dedupeStep_mem hin with h2 | h2
      · exact Or.inl h2
      · exact Or.inr (by simp [h2])
    · exact Or.inr (by simp [hin])

/-- Every URL surviving the dedup pass was in its input. -/
theorem dedupe_sizes_subset {l : List String} {u : String}
    (h : u ∈ dedupe_sizes l) : u ∈ l := by
  rw [dedupe_sizes] at h
  obtain ⟨e, he, hu⟩ := List.mem_map.mp h
  rcases foldl_dedupeStep_mem l [] e he with hin | hin
  · simp at hin
  · exact hu ▸ hin

theorem dedupeStep_length (seen : List (String × (String × Nat))) (u : String) :
    (dedupeStep seen u).length ≤ seen.length + 1 := by
  rw [dedupeStep]
  cases searchImgId u.data with
  | some k =>
    simp only
    cases seen.lookup k with
    | none => simp
    | some v =>
      dsimp only
      by_cases hp : priority u > v.2
      · rw [if_pos hp, setAssoc]
        by_cases hany : (seen.any (fun e2 => e2.1 == k)) = true
        · rw [if_pos hany]; simp
        · rw [if_neg hany]; simp
      · rw [if_neg hp]; omega
  | none =>
    rw [setAssoc]
    by_cases hany : (seen.any (fun e2 => e2.1 == u)) = true
    · rw [if_pos hany]; simp
    · rw [if_neg hany]; simp

theorem foldl_dedupeStep_length (l : List String) :
    ∀ seen, (l.foldl dedupeStep seen).length ≤ seen.length + l.length := by
  induction l with
  | nil => intro seen; simp
  | cons u us ih =>
    intro seen
    rw [List.foldl_cons]
    have h1 := ih (dedupeStep seen u)
    have h2 := dedupeStep_length seen u
    simp only [List.length_cons]
    omega

/-- The dedup pass never returns more URLs than it was given. -/
theorem dedupe_sizes_length (l : List String) :
    (dedupe_sizes l).length ≤ l.length := by
  rw [dedupe_sizes, List.length_map]
  have := foldl_dedupeStep_length l []
  simpa using this

/-- The dedup pass is the identity on singletons. -/
theorem dedupe_sizes_singleton (u : String) : dedupe_sizes [u] = [u] := by
  apply dedupe_sizes_of_nodup_keys
  simp

/-- A URL occurring exactly once in the concatenation of a list of lists
lies in exactly one of them. -/
theorem countP_mem_of_count_flatten_one {ls : List (List String)} {u : String}
    (h : ls.flatten.count u = 1) :
    ls.countP (fun l => decide (u ∈ l)) = 1 := by
  induction ls with
  | nil => simp at h
  | cons l ls ih =>
    rw [List.flatten_cons, List.count_append] at h
    by_cases hm : u ∈ l
    · have h1 : 0 < l.count u := List.count_pos_iff.mpr hm
      have h2 : ls.flatten.count u = 0 := by omega
      have h3 : ls.countP (fun l2 => decide (u ∈ l2)) = 0 := by
        rw [List.countP_eq_zero]
        intro l2 hl2
        simp only [decide_eq_true_eq]
        intro hu2
        have : u ∈ ls.flatten := List.mem_flatten.mpr ⟨l2, hl2, hu2⟩
        rw [← List.count_pos_iff] at this
        omega
      rw [List.countP_cons]
      simp [hm, h3]
    · have h1 : l.count u = 0 := by
        rw [List.count_eq_zero]
        exact hm
      rw [h1, Nat.zero_add] at h
      rw [List.countP_cons]
      simp [hm, ih h]

/-! ## Collector termination -/

/-- The stagnation phase: with `m` more non-growing iterations needed to
reach the threshold (counter standing at `5 - m`), the loop executes
exactly those `m` iterations and scrolls in all but the last. -/
theorem collectorLoop_stag (batches : Nat → List String) :
    ∀ (m : Nat), 1 ≤ m → m ≤ 5 → ∀ (i rem : Nat), m ≤ rem →
      (∀ t, i ≤ t → t < i + m →
        (accumUpTo batches (t + 1)).length = (accumUpTo batches t).length) →
      (collectorLoop batches rem i (accumUpTo batches i)
          (accumUpTo batches i).length (5 - m)).2 = (m, m - 1) := by
  intro m
  induction m with
  | zero => intro h1; omega
  | succ m ih =>
    intro h1 h5 i rem hrem hstag
    obtain ⟨r, rfl⟩ : ∃ r, rem = r + 1 := ⟨rem - 1, by omega⟩
    rw [collectorLoop]
    have hmerge : mergeBatch (accumUpTo batches i) (batches i) =
        accumUpTo batches (i + 1) := rfl
    have heq : (accumUpTo batches (i + 1)).length =
        (accumUpTo batches i).length := hstag i (le_refl i) (by omega)
    dsimp only
    rw [hmerge, if_pos heq]
    by_cases hm : m = 0
    · subst hm
      rw [if_pos (by omega)]
    · rw [if_neg (by omega)]
      have h2 : 5 - (m + 1) + 1 = 5 - m := by omega
      rw [h2]
      have h4 := ih (by omega) (by omega) (i + 1) r (by omega)
        (fun t ht1 ht2 => hstag t (by omega) (by omega))
      dsimp only
      have t1 : (collectorLoop batches r (i + 1) (accumUpTo batches (i + 1))
          (accumUpTo batches (i + 1)).length (5 - m)).2.1 = m := by rw [h4]
      have t2 : (collectorLoop batches r (i + 1) (accumUpTo batches (i + 1))
          (accumUpTo batches (i + 1)).length (5 - m)).2.2 = m - 1 := by rw [h4]
      rw [t1, t2]
      simp only [Prod.mk.injEq]
      refine ⟨trivial, ?_⟩
      omega

/-- With the counter reset and `d` growing iterations left before the
plateau (growth through iteration `s`, stagnation on iterations
`s+1 … s+5`), the loop executes exactly the remaining `s+6-i` iterations
and scrolls in all but the last. -/
theorem collectorLoop_grow (batches : Nat → List String) (s : Nat)
    (hgrow : ∀ t, t ≤ s →
      (accumUpTo batches (t + 1)).length ≠ (accumUpTo batches t).length)
    (hstag : ∀ t, s < t → t ≤ s + 5 →
      (accumUpTo batches (t + 1)).length = (accumUpTo batches t).length) :
    ∀ (d i rem : Nat), i + d = s + 1 → s + 6 - i ≤ rem →
      (collectorLoop batches rem i (accumUpTo batches i)
          (accumUpTo batches i).length 0).2 = (s + 6 - i, s + 5 - i) := by
  intro d
  induction d with
  | zero =>
    intro i rem hi hrem
    have hi' : i = s + 1 := by omega
    subst hi'
    have h5 : s + 6 - (s + 1) = 5 := by omega
    have h4 : s + 5 - (s + 1) = 4 := by omega
    rw [h5, h4]
    have := collectorLoop_stag batches 5 (by omega) (by omega) (s + 1) rem
      (by omega) (fun t ht1 ht2 => hstag t (by omega) (by omega))
    simpa using this
  | succ d ih =>
    intro i rem hi hrem
    have his : i ≤ s := by omega
    obtain ⟨r, rfl⟩ : ∃ r, rem = r + 1 := ⟨rem - 1, by omega⟩
    rw [collectorLoop]
    have hmerge : mergeBatch (accumUpTo batches i) (batches i) =
        accumUpTo batches (i + 1) := rfl
    dsimp only
    rw [hmerge, if_neg (hgrow i his)]
    have h4 := ih (i + 1) r (by omega) (by omega)
    dsimp only
    have t1 : (collectorLoop batches r (i + 1) (accumUpTo batches (i + 1))
        (accumUpTo batches (i + 1)).length 0).2.1 = s + 6 - (i + 1) := by rw [h4]
    have t2 : (collectorLoop batches r (i + 1) (accumUpTo batches (i + 1))
        (accumUpTo batches (i + 1)).length 0).2.2 = s + 5 - (i + 1) := by rw [h4]
    rw [t1, t2]
    simp only [Prod.mk.injEq]
    constructor <;> omega

/-- Full-run version: growth through iteration `s`, stagnation on the five
following iterations, budget at least `s+6`: the collector executes
exactly iterations `0 … s+5` (the last executed iteration has index
`s+5`) and issues exactly `s+5` scrolls — none after the threshold hits. -/
theorem collectorRun_stagnation (batches : Nat → List String) (s budget : Nat)
    (hgrow : ∀ t, t ≤ s →
      (accumUpTo batches (t + 1)).length ≠ (accumUpTo batches t).length)
    (hstag : ∀ t, s < t → t ≤ s + 5 →
      (accumUpTo batches (t + 1)).length = (accumUpTo batches t).length)
    (hbudget : s + 6 ≤ budget) :
    (collectorRun batches budget).2 = (s + 6, s + 5) := by
  have := collectorLoop_grow batches s hgrow hstag (s + 1) 0 budget (by omega)
    (by omega)
  simpa using this

/-! ## Small computation lemmas for the dedup loop -/

theorem dedupeStep_start {k u : String} (h : searchImgId u.data = some k) :
    dedupeStep [] u = [(k, (u, priority u))] := by
  rw [dedupeStep, h]
  dsimp only
  simp [List.lookup]

theorem dedupeStep_replace {k u1 u2 : String} {p1 : Nat}
    (h2 : searchImgId u2.data = some k) (hgt : priority u2 > p1) :
    dedupeStep [(k, (u1, p1))] u2 = [(k, (u2, priority u2))] := by
  rw [dedupeStep, h2]
  dsimp only
  have hl : List.lookup k [(k, (u1, p1))] = some (u1, p1) := by simp [List.lookup]
  rw [hl]
  dsimp only
  rw [if_pos hgt, setAssoc, if_pos (by simp)]
  simp

theorem dedupeStep_keep {k u1 u2 : String} {p1 : Nat}
    (h2 : searchImgId u2.data = some k) (hle : ¬ priority u2 > p1) :
    dedupeStep [(k, (u1, p1))] u2 = [(k, (u1, p1))] := by
  rw [dedupeStep, h2]
  dsimp only
  have hl : List.lookup k [(k, (u1, p1))] = some (u1, p1) := by simp [List.lookup]
  rw [hl]
  dsimp only
  rw [if_neg hle]

/-! ## Claim theorems -/

/-- C2 (counterexample): two URLs with the same canonical identifier and
the same priority (no size markers, so priority 4 for both); the dedup
step retains the EARLIER one, refuting last-write-wins at this input. -/
theorem C2_tie_last_wins_false :
    searchImgId "https://a/1_2_3_n.jpg?v=1".data = some "1_2_3_n" ∧
    searchImgId "https://a/1_2_3_n.jpg?v=2".data = some "1_2_3_n" ∧
    priority "https://a/1_2_3_n.jpg?v=1" = priority "https://a/1_2_3_n.jpg?v=2" ∧
    dedupe_sizes ["https://a/1_2_3_n.jpg?v=1", "https://a/1_2_3_n.jpg?v=2"] ≠
      ["https://a/1_2_3_n.jpg?v=2"] := by
  refine ⟨rfl, rfl, rfl, ?_⟩
  decide

/-- C2 (amended): in the dedup step, for two URLs with the same canonical
identifier and the same resolution priority, the URL encountered EARLIER
in input order is the one retained (the comparison `priority > stored` is
strict, so a tie keeps the stored entry). -/
theorem C2_tie_first_wins (u1 u2 k : String)
    (h1 : searchImgId u1.data = some k) (h2 : searchImgId u2.data = some k)
    (hp : priority u1 = priority u2) :
    dedupe_sizes [u1, u2] = [u1] := by
  rw [dedupe_sizes, List.foldl_cons, List.foldl_cons, List.foldl_nil,
    dedupeStep_start h1, dedupeStep_keep h2 (by omega)]
  rfl

/-- C2 (witness for the amended claim). -/
theorem C2_tie_first_wins_witness :
    dedupe_sizes ["https://a/1_2_3_n.jpg?v=1", "https://a/1_2_3_n.jpg?v=2"] =
      ["https://a/1_2_3_n.jpg?v=1"] :=
  C2_tie_first_wins _ _ "1_2_3_n" rfl rfl rfl

/-- C5: four URLs sharing one canonical identifier and bearing the
`s150x150`, `s320x320`, `s640x640` and no size marker respectively; the
dedup step retains exactly the unmarked (full-resolution) URL. -/
theorem C5_priority_keeps_full_resolution (u1 u2 u3 u4 k : String)
    (h1 : searchImgId u1.data = some k) (h2 : searchImgId u2.data = some k)
    (h3 : searchImgId u3.data = some k) (h4 : searchImgId u4.data = some k)
    (m1 : containsSub u1 "s150x150" = true)
    (m2a : containsSub u2 "s150x150" = false)
    (m2 : containsSub u2 "s320x320" = true)
    (m3a : containsSub u3 "s150x150" = false)
    (m3b : containsSub u3 "s320x320" = false)
    (m3 : containsSub u3 "s640x640" = true)
    (m4a : containsSub u4 "s150x150" = false)
    (m4b : containsSub u4 "s320x320" = false)
    (m4c : containsSub u4 "s640x640" = false) :
    dedupe_sizes [u1, u2, u3, u4] = [u4] := by
  have hp1 : priority u1 = 1 := by simp [priority, m1]
  have hp2 : priority u2 = 2 := by simp [priority, m2a, m2]
  have hp3 : priority u3 = 3 := by simp [priority, m3a, m3b, m3]
  have hp4 : priority u4 = 4 := by simp [priority, m4a, m4b, m4c]
  rw [dedupe_sizes, List.foldl_cons, List.foldl_cons, List.foldl_cons,
    List.foldl_cons, List.foldl_nil, dedupeStep_start h1, hp1,
    dedupeStep_replace h2 (by omega), hp2,
    dedupeStep_replace h3 (by omega), hp3,
    dedupeStep_replace h4 (by omega), hp4]
  rfl

/-- C5 (witness). -/
theorem C5_priority_keeps_full_resolution_witness :
    dedupe_sizes ["https://a/1_2_3_n_s150x150.jpg", "https://a/1_2_3_n_s320x320.jpg",
        "https://a/1_2_3_n_s640x640.jpg", "https://a/1_2_3_n.jpg"] =
      ["https://a/1_2_3_n.jpg"] :=
  C5_priority_keeps_full_resolution _ _ _ _ "1_2_3_n" rfl rfl rfl rfl
    (by decide) (by decide) (by decide) (by decide) (by decide) (by decide)
    (by decide) (by decide) (by decide)

/-- C6: the dedup step is idempotent — applied to its own output it
returns that output unchanged (even as a list, hence also as a set). -/
theorem C6_dedupe_idempotent (urls : List String) :
    dedupe_sizes (dedupe_sizes urls) = dedupe_sizes urls :=
  dedupe_sizes_of_nodup_keys (dedupe_sizes_keys_nodup urls)

/-- C8 (counterexample): the serialized record has five top-level fields,
not four, at any concrete instantiation. -/
theorem C8_four_fields_false :
    (mkScrapeResult "user" "2025-01-01T00:00:00" [] []).length ≠ 4 := by
  decide

/-- C8 (amended): the serialized record has exactly five top-level fields,
in order: the source identifier, the completion timestamp, the total raw
image count, the total post count, and the nested post structure. -/
theorem C8_result_fields (username scrapedAt : String) (allImages : List String)
    (posts : List (List String)) :
    (mkScrapeResult username scrapedAt allImages posts).map Prod.fst =
      ["username", "scraped_at", "total_images", "total_posts", "posts"] ∧
    (mkScrapeResult username scrapedAt allImages posts).length = 5 :=
  ⟨rfl, rfl⟩

/-- C9: every Post returned by the grouper is non-empty. -/
theorem C9_posts_nonempty (images : List String) (p : List String)
    (hp : p ∈ group_images images) : p ≠ [] := by
  rw [group_images] at hp
  have h2 := (List.mem_filter.mp hp).2
  intro he
  rw [he] at h2
  simp at h2

/-- C9 (witness). -/
theorem C9_posts_nonempty_witness : (["abc"] : List String) ≠ [] :=
  C9_posts_nonempty ["abc"] ["abc"] (by decide)

/-- C1 (counterexample): on the spec's end-to-end example the dedup
pattern (`/ digits _ digits _ digits _n`) does not match these URLs
(they have only two digit runs before `_n`), so the `s150x150` thumbnail
variant is NOT dropped: no output Post contains the full-resolution URL
without also containing its thumbnail variant. -/
theorem C1_example_false :
    group_images ["https://cdninstagram.com/111_123456789_n.jpg",
        "https://cdninstagram.com/111_123456789_n_s150x150.jpg",
        "https://cdninstagram.com/222_987654321_n.jpg"] =
      [["https://cdninstagram.com/111_123456789_n.jpg",
        "https://cdninstagram.com/111_123456789_n_s150x150.jpg"],
       ["https://cdninstagram.com/222_987654321_n.jpg"]] ∧
    ∀ p ∈ group_images ["https://cdninstagram.com/111_123456789_n.jpg",
        "https://cdninstagram.com/111_123456789_n_s150x150.jpg",
        "https://cdninstagram.com/222_987654321_n.jpg"],
      ¬(("https://cdninstagram.com/111_123456789_n.jpg" : String) ∈ p ∧
        ("https://cdninstagram.com/111_123456789_n_s150x150.jpg" : String) ∉ p) := by
  refine ⟨by decide, ?_⟩
  decide

/-- C1 (amended): the grouper returns exactly two Posts — one containing
the full-resolution URL TOGETHER WITH its `s150x150` variant (the
canonical-identifier pattern requires three underscore-separated digit
runs, which these URLs lack, so each is kept standalone by the dedup
pass), and one containing the `222_987654321_n` URL alone. -/
theorem C1_example_two_posts :
    group_images ["https://cdninstagram.com/111_123456789_n.jpg",
        "https://cdninstagram.com/111_123456789_n_s150x150.jpg",
        "https://cdninstagram.com/222_987654321_n.jpg"] =
      [["https://cdninstagram.com/111_123456789_n.jpg",
        "https://cdninstagram.com/111_123456789_n_s150x150.jpg"],
       ["https://cdninstagram.com/222_987654321_n.jpg"]] := by
  decide

/-- C3: for distinct input URLs the pre-dedup groups partition the input —
the groups' contents are a permutation of the input, the group keys
(9-digit post ids and synthetic fallback keys alike) are pairwise
distinct, and every URL lies in exactly one group. -/
theorem C3_groups_partition (images : List String) (h : images.Nodup) :
    (groupsUrls (buildGroups images)).Perm images ∧
    ((buildGroups images).map Prod.fst).Nodup ∧
    ∀ url ∈ images,
      ((buildGroups images).countP (fun g => decide (url ∈ g.2))) = 1 := by
  refine ⟨buildGroups_urls_perm images, (buildGroups_inv images).nodupKeys, ?_⟩
  intro url hu
  have hcount : (((buildGroups images).map Prod.snd).flatten).count url = 1 := by
    have hp : (groupsUrls (buildGroups images)).count url = images.count url :=
      (buildGroups_urls_perm images).count_eq url
    rw [groupsUrls] at hp
    rw [hp]
    exact List.count_eq_one_of_mem h hu
  have h2 := countP_mem_of_count_flatten_one hcount
  rw [List.countP_map] at h2
  exact h2

/-- C3 (witness). -/
theorem C3_groups_partition_witness :
    (groupsUrls (buildGroups ["https://cdninstagram.com/111_123456789_n.jpg",
        "xyz"])).Perm ["https://cdninstagram.com/111_123456789_n.jpg", "xyz"] ∧
    ((buildGroups ["https://cdninstagram.com/111_123456789_n.jpg",
        "xyz"]).map Prod.fst).Nodup ∧
    ∀ url ∈ (["https://cdninstagram.com/111_123456789_n.jpg", "xyz"] : List String),
      ((buildGroups ["https://cdninstagram.com/111_123456789_n.jpg",
        "xyz"]).countP (fun g => decide (url ∈ g.2))) = 1 :=
  C3_groups_partition ["https://cdninstagram.com/111_123456789_n.jpg", "xyz"]
    (by decide)

/-- A URL matching neither pattern can only sit in a synthetic singleton
group, and that group is exactly `[url]`. -/
theorem unmatched_group_singleton {images : List String} {url : String}
    (h1 : searchPostId url.data = none) {g : String × List String}
    (hg : g ∈ buildGroups images) (hul : url ∈ g.2) : g.2 = [url] := by
  have inv := buildGroups_inv images
  have hpair : (g.1, g.2) ∈ buildGroups images := by
    have : g = (g.1, g.2) := rfl
    rw [← this]
    exact hg
  by_cases hh : g.1.data.head? = some 's'
  · obtain ⟨u0, he, _⟩ := inv.singleGroups g.1 g.2 hpair hh
    rw [he] at hul
    have : url = u0 := by simpa using hul
    rw [he, this]
  · exact absurd h1 (inv.pidGroups g.1 g.2 hpair hh url hul)

/-- C4 (counterexample): with a duplicated input URL matching neither
pattern, the URL appears in two Posts, not exactly one. -/
theorem C4_duplicate_input_false :
    searchPostId "abc".data = none ∧ searchImgId "abc".data = none ∧
    ((group_images ["abc", "abc"]).countP
      (fun p => decide (("abc" : String) ∈ p))) = 2 := by
  refine ⟨by decide, by decide, by decide⟩

/-- C4 (amended): for an input list of DISTINCT URLs, a URL that matches
neither the grouping pattern nor the dedup pattern appears verbatim, as a
singleton Post, in exactly one Post of the output. -/
theorem C4_fallback_survives (images : List String) (url : String)
    (hnd : images.Nodup) (hmem : url ∈ images)
    (h1 : searchPostId url.data = none) (h2 : searchImgId url.data = none) :
    [url] ∈ group_images images ∧
    ((group_images images).countP (fun p => decide (url ∈ p))) = 1 := by
  have hurl : url ∈ groupsUrls (buildGroups images) :=
    (buildGroups_urls_perm images).mem_iff.mpr hmem
  rw [groupsUrls] at hurl
  obtain ⟨l, hl, hul⟩ := List.mem_flatten.mp hurl
  obtain ⟨g, hg, hgl⟩ := List.mem_map.mp hl
  have hsingle : g.2 = [url] := unmatched_group_singleton h1 hg (hgl ▸ hul)
  constructor
  · rw [group_images]
    apply List.mem_filter.mpr
    refine ⟨List.mem_map.mpr ⟨g, hg, ?_⟩, by simp⟩
    rw [hsingle, dedupe_sizes_singleton]
  · rw [group_images, List.countP_filter, List.countP_map]
    have hcong : ∀ g2 ∈ buildGroups images,
        ((fun a => decide (url ∈ a) && !a.isEmpty) ∘
          (fun g3 => dedupe_sizes g3.2)) g2 = true ↔
        (fun g3 => decide (url ∈ g3.2)) g2 = true := by
      intro g2 hg2
      simp only [Function.comp_apply, Bool.and_eq_true, decide_eq_true_eq]
      constructor
      · rintro ⟨hin, -⟩
        exact dedupe_sizes_subset hin
      · intro hin
        have hs2 : g2.2 = [url] := unmatched_group_singleton h1 hg2 hin
        rw [hs2, dedupe_sizes_singleton]
        refine ⟨by simp, by simp⟩
    rw [List.countP_congr hcong]
    have hcount : (((buildGroups images).map Prod.snd).flatten).count url = 1 := by
      have hp : (groupsUrls (buildGroups images)).count url = images.count url :=
        (buildGroups_urls_perm images).count_eq url
      rw [groupsUrls] at hp
      rw [hp]
      exact List.count_eq_one_of_mem hnd hmem
    have h3 := countP_mem_of_count_flatten_one hcount
    rw [List.countP_map] at h3
    exact h3

/-- C4 (witness). -/
theorem C4_fallback_survives_witness :
    ([("abc" : String)] ∈ group_images ["abc"]) ∧
    ((group_images ["abc"]).countP
      (fun p => decide (("abc" : String) ∈ p))) = 1 :=
  C4_fallback_survives ["abc"] "abc" (by decide) (by decide) (by decide)
    (by decide)

/-- C10: the grouper never invents or rewrites URLs — every URL in any
output Post is an element of the input list, and the total number of URLs
across all output Posts is at most the input length. -/
theorem C10_no_invented_urls (images : List String) :
    (∀ p ∈ group_images images, ∀ u ∈ p, u ∈ images) ∧
    (group_images images).flatten.length ≤ images.length := by
  constructor
  · intro p hp u hu
    rw [group_images] at hp
    obtain ⟨g, hg, hpg⟩ := List.mem_map.mp (List.mem_filter.mp hp).1
    have hug : u ∈ g.2 := dedupe_sizes_subset (hpg ▸ hu)
    have humem : u ∈ groupsUrls (buildGroups images) := by
      rw [groupsUrls]
      exact List.mem_flatten.mpr ⟨g.2, List.mem_map.mpr ⟨g, hg, rfl⟩, hug⟩
    exact (buildGroups_urls_perm images).mem_iff.mp humem
  · rw [group_images]
    have h1 : ((((buildGroups images).map (fun g => dedupe_sizes g.2)).filter
        (fun p => !p.isEmpty)).map List.length).Sublist
        (((buildGroups images).map (fun g => dedupe_sizes g.2)).map List.length) :=
      (List.filter_sublist _).map _
    have h2 : ((((buildGroups images).map (fun g => dedupe_sizes g.2)).filter
        (fun p => !p.isEmpty)).map List.length).sum ≤
        (((buildGroups images).map (fun g => dedupe_sizes g.2)).map List.length).sum :=
      h1.sum_le_sum (fun a _ => Nat.zero_le a)
    have h3 : (((buildGroups images).map (fun g => dedupe_sizes g.2)).map
        List.length).sum ≤
        (((buildGroups images).map Prod.snd).map List.length).sum := by
      rw [List.map_map, List.map_map]
      apply List.sum_le_sum
      intro g _
      exact dedupe_sizes_length g.2
    have h4 : (((buildGroups images).map Prod.snd).map List.length).sum =
        images.length := by
      rw [← List.length_flatten]
      exact (buildGroups_urls_perm images).length_eq
    rw [List.length_flatten]
    omega

/-- C10 (witness). -/
theorem C10_no_invented_urls_witness :
    (("abc" : String) ∈ (["abc"] : List String)) ∧
    (group_images ["abc"]).flatten.length ≤ (["abc"] : List String).length :=
  ⟨(C10_no_invented_urls ["abc"]).1 ["abc"] (by decide) "abc" (by decide),
    (C10_no_invented_urls ["abc"]).2⟩

/-- C7: modelling the collector as a fold over scripted per-iteration
extraction batches, with the accumulated set growing through iteration
`s` (the stagnation start: the plateau value is reached there) and
failing to grow on the five consecutive iterations `s+1 … s+5`, the
collector stops immediately on hitting the threshold: for any budget of
at least `s+6` it executes exactly iterations `0 … s+5` (the last
executed iteration index is `s + 5`, i.e. stagnation start + 5) and
issues exactly `s+5` scrolls — none on the breaking iteration. -/
theorem C7_stagnation_stops (batches : Nat → List String) (s budget : Nat)
    (hgrow : ∀ t, t ≤ s →
      (accumUpTo batches (t + 1)).length ≠ (accumUpTo batches t).length)
    (hstag : ∀ t, s < t → t ≤ s + 5 →
      (accumUpTo batches (t + 1)).length = (accumUpTo batches t).length)
    (hbudget : s + 6 ≤ budget) :
    (collectorRun batches budget).2 = (s + 6, s + 5) :=
  collectorRun_stagnation batches s budget hgrow hstag hbudget

/-- C7 (witness): one growing iteration (index 0), then empty batches;
with budget 6 the collector executes 6 iterations and 5 scrolls. -/
theorem C7_stagnation_stops_witness :
    (collectorRun (fun i => if i = 0 then ["a"] else []) 6).2 = (6, 5) :=
  C7_stagnation_stops (fun i => if i = 0 then ["a"] else []) 0 6
    (by
      intro t ht
      interval_cases t
      decide)
    (by
      intro t h1 h2
      interval_cases t <;> decide)
    (by omega)
end ThreadGram
